import Mathlib

/-!
# PluginProxy Transpiler — verification development

A shallow embedding of the transpilation core of the PluginProxy
Transpiler (Rust, `src/lib.rs`, `src/dom/extension.rs`, `src/dom/rbx_path.rs`,
`src/error.rs`), together with theorems settling the frozen claims about it.

Conventions:
* Rust `Vec` push/pop at the end is modelled either by `List` append at the
  end (`++ [x]`) when order of accumulation matters, or — for the traversal
  work stack — by a `List` whose *head* is the top of the stack.
* Machine integers (`usize`, `u8`) are modelled as `Nat`; no arithmetic in
  the embedded code can overflow in the scenarios a claim quantifies over.
* External crates (`full_moon`'s parser/printer machinery, the rbx codecs,
  `glob_match`, the file system) are black boxes per the design document and
  enter the model as explicit function parameters.
-/

namespace PluginProxy

/-! ## `dom/rbx_path.rs` — `DotPath` -/

/-- Rust `[String]::join(separator)`: concatenation with `separator`
between consecutive elements. -/
def joinSep (sep : String) : List String → String
  | [] => ""
  | [x] => x
  | x :: y :: rest => x ++ sep ++ joinSep sep (y :: rest)

/-- `DotPath` (`rbx_path.rs`): a fixed root token plus an ordered list of
path components. -/
structure DotPath where
  root : String
  components : List String
  deriving Repr, DecidableEq

instance : Inhabited DotPath where
  default := { root := "script", components := [] }

/-- `DotPath::new_ancestor_path`: `depth` repetitions of the ascend token. -/
def DotPath.new_ancestor_path (depth : Nat) : DotPath :=
  { root := "script", components := List.replicate depth "Parent" }

/-- `DotPath::depth`. -/
def DotPath.depth (p : DotPath) : Nat := p.components.length

/-- `DotPath::push` (Vec push = append at the end). -/
def DotPath.push (p : DotPath) (component : String) : DotPath :=
  { p with components := p.components ++ [component] }

/-- `DotPath::pop`. -/
def DotPath.pop (p : DotPath) : DotPath :=
  { p with components := p.components.dropLast }

/-- `DotPath::join`: the root, then (if any components) the separator and the
separator-joined components. -/
def DotPath.join (p : DotPath) (separator : String) : String :=
  p.root ++ (if p.components ≠ [] then separator ++ joinSep separator p.components else "")

/-- `impl fmt::Display for DotPath`: dotted rendering. -/
def DotPath.render (p : DotPath) : String := p.join "."

/-- `DotPath::path_string`: slash-joined rendering with a trailing slash. -/
def DotPath.path_string (p : DotPath) : String := p.join "/" ++ "/"

@[simp] theorem DotPath.depth_push (p : DotPath) (c : String) :
    (p.push c).depth = p.depth + 1 := by
  simp [DotPath.push, DotPath.depth]

@[simp] theorem DotPath.depth_default : (default : DotPath).depth = 0 := rfl

/-! ## rbx-dom data model (`rbx_dom_weak`, as used by the repository)

`WeakDom` stores instances in an arena keyed by `Ref`; every child `Ref` of a
live instance resolves (`get_by_ref(..).expect(..)` in `foreach_descendant`),
children lists form a forest, and referents are unique.  We model an
instance together with its resolved subtree; `referent` carries the `Ref`.
The uniqueness of referents is an explicit hypothesis (`RefsNodup`) where a
claim needs it. -/

/-- `rbx_dom_weak::types::Variant`, restricted to the observation the code
makes (`Variant::String`); every other variant kind is opaque data. -/
inductive Variant where
  | str (s : String)
  | other (tag : Nat)
  deriving Repr, DecidableEq

/-- An `Instance` with its resolved children subtrees. -/
inductive Inst where
  | mk (referent : Nat) (name : String) (className : String)
      (props : List (String × Variant)) (children : List Inst)

def Inst.referent : Inst → Nat
  | .mk r _ _ _ _ => r

def Inst.name : Inst → String
  | .mk _ n _ _ _ => n

def Inst.className : Inst → String
  | .mk _ _ c _ _ => c

def Inst.props : Inst → List (String × Variant)
  | .mk _ _ _ p _ => p

def Inst.children : Inst → List Inst
  | .mk _ _ _ _ c => c

/-- Size of a subtree (number of nodes), used as a termination measure. -/
def Inst.size : Inst → Nat
  | .mk _ _ _ _ children => 1 + sizeList children
where
  sizeList : List Inst → Nat
    | [] => 0
    | c :: cs => c.size + sizeList cs

theorem Inst.size_pos (i : Inst) : 0 < i.size := by
  cases i with
  | mk r n c p children => simp [Inst.size]

@[simp] theorem Inst.size_mk (r : Nat) (n c : String) (p : List (String × Variant))
    (children : List Inst) :
    (Inst.mk r n c p children).size = 1 + Inst.size.sizeList children := rfl

@[simp] theorem Inst.sizeList_nil : Inst.size.sizeList [] = 0 := rfl

@[simp] theorem Inst.sizeList_cons (c : Inst) (cs : List Inst) :
    Inst.size.sizeList (c :: cs) = c.size + Inst.size.sizeList cs := rfl

@[simp] theorem Inst.size_children (i : Inst) :
    Inst.size.sizeList i.children + 1 = i.size := by
  cases i with
  | mk r n c p children => simp [Inst.children]; omega

/-- The strict descendants of each node in a list, each node listed before its
own descendants (preorder). -/
def descList : List Inst → List Inst
  | [] => []
  | c :: cs => c :: (descList c.children ++ descList cs)
termination_by l => Inst.size.sizeList l
decreasing_by
  all_goals
    have h1 := Inst.size_children c
    simp
    omega

/-- The strict descendants of a node. -/
def Inst.descendants (i : Inst) : List Inst := descList i.children

/-- Nodes of depth at most `d` below a node whose children list is given
(`descAtMost 0 _ = []`: the budget is exhausted). -/
def descAtMost : Nat → List Inst → List Inst
  | 0, _ => []
  | _ + 1, [] => []
  | d + 1, c :: cs => c :: (descAtMost d c.children ++ descAtMost (d + 1) cs)
termination_by d l => (d, Inst.size.sizeList l)
decreasing_by
  · exact Prod.Lex.left _ _ (by omega)
  · exact Prod.Lex.right _ (by have := Inst.size_pos c; simp; omega)

/-- The strict descendants of a node whose depth below it is at most `d`. -/
def descUpTo (d : Nat) (i : Inst) : List Inst := descAtMost d i.children

/-! ## `dom/extension.rs` — the traversal engine

`foreach_descendant` walks the tree with an explicit work stack
(`Vec::pop` from the end; we keep the list head as the stack top).  The
`FnMut` visitor closure is modelled as a state-threading function
`σ → Inst → DotPath → σ × ForEachAction`; the model additionally records, as
ghost instrumentation, the `(instance, path)` argument of every invocation
of the visitor, in invocation order. -/

/-- `ForEachAction` (`extension.rs`). -/
inductive ForEachAction where
  | cont
  | brk
  deriving Repr, DecidableEq

/-- One `(node, path)` entry of the work stack / visit log. -/
abbrev Entry := Inst × DotPath

/-- Sum of subtree sizes over a work stack: the termination measure. -/
def sizeQ (q : List Entry) : Nat := (q.map (fun e => e.1.size)).sum

@[simp] theorem sizeQ_nil : sizeQ [] = 0 := rfl

@[simp] theorem sizeQ_cons (e : Entry) (q : List Entry) :
    sizeQ (e :: q) = e.1.size + sizeQ q := by
  simp [sizeQ]

@[simp] theorem sizeQ_append (q₁ q₂ : List Entry) :
    sizeQ (q₁ ++ q₂) = sizeQ q₁ + sizeQ q₂ := by
  simp [sizeQ]

/-- The inner `for child_id in current.children()` loop of
`foreach_descendant`: visits each child (after pushing its name onto the
path), stops everything on `Break`, and otherwise pushes the child onto the
work stack when it is within the depth bound.  Returns the final closure
state, the visit log of the loop, and `some` updated stack — or `none` when
the `Break` arm ran (the Rust code `return`s from the whole function). -/
def forChildren {σ : Type} (pred : σ → Inst → DotPath → σ × ForEachAction)
    (depth : Nat) (path : DotPath) :
    List Inst → List Entry → σ → σ × List Entry × Option (List Entry)
  | [], queue, s => (s, [], some queue)
  | c :: cs, queue, s =>
      let path' := path.push c.name
      match pred s c path' with
      | (s', .brk) => (s', [(c, path')], none)
      | (s', .cont) =>
          let queue' := if path'.depth < depth ∨ depth = 0 then (c, path') :: queue else queue
          let r := forChildren pred depth path cs queue' s'
          (r.1, (c, path') :: r.2.1, r.2.2)

theorem forChildren_sizeQ {σ : Type} (pred : σ → Inst → DotPath → σ × ForEachAction)
    (depth : Nat) (path : DotPath) (cs : List Inst) (queue : List Entry) (s : σ)
    (q' : List Entry) (h : (forChildren pred depth path cs queue s).2.2 = some q') :
    sizeQ q' ≤ Inst.size.sizeList cs + sizeQ queue := by
  induction cs generalizing queue s with
  | nil =>
      simp [forChildren] at h
      subst h
      simp
  | cons c cs ih =>
      simp only [forChildren] at h
      rcases hp : pred s c (path.push c.name) with ⟨s', a⟩
      rw [hp] at h
      cases a with
      | brk => simp at h
      | cont =>
          simp only at h
          by_cases hd : (path.push c.name).depth < depth ∨ depth = 0
          · rw [if_pos hd] at h
            have := ih _ _ h
            simp at this ⊢
            omega
          · rw [if_neg hd] at h
            have := ih _ _ h
            simp at this ⊢
            omega

/-- The `while let Some((current, mut path)) = queue.pop()` loop of
`foreach_descendant` (the stack top is the list head). -/
def foreachAux {σ : Type} (pred : σ → Inst → DotPath → σ × ForEachAction)
    (depth : Nat) : List Entry → σ → σ × List Entry
  | [], s => (s, [])
  | (cur, path) :: rest, s =>
      match h : forChildren pred depth path cur.children rest s with
      | (s', vs, none) => (s', vs)
      | (s', vs, some queue') =>
          let r := foreachAux pred depth queue' s'
          (r.1, vs ++ r.2)
termination_by q _ => sizeQ q
decreasing_by
  have hb := forChildren_sizeQ pred depth path cur.children rest s queue' (by rw [h])
  have hc := Inst.size_children cur
  simp
  omega

/-- `WeakDom::foreach_descendant(parent, predicate, depth)`: starts from the
stack holding `parent` with the default path.  Returns the final closure
state and the visit log. -/
def foreachDescendant {σ : Type} (pred : σ → Inst → DotPath → σ × ForEachAction)
    (s : σ) (parent : Inst) (depth : Nat) : σ × List Entry :=
  foreachAux pred depth [(parent, default)] s

/-! ### The predicate-independent visit schedule

Which nodes `foreach_descendant` offers to the visitor, and in which order,
does not depend on the visitor (the visitor can only cut the run short).
`enumAux` computes that full schedule; `breakRun` replays a visitor over a
schedule, stopping at the first `Break`.  `foreachAux_eq_breakRun_enumAux`
ties the faithful translation to this decomposition. -/

/-- The children of a node paired with their visit paths, in child order. -/
def visitChildren (children : List Inst) (path : DotPath) : List Entry :=
  children.map (fun c => (c, path.push c.name))

/-- The children that the loop pushes onto the work stack. -/
def keptChildren (depth : Nat) (children : List Inst) (path : DotPath) : List Entry :=
  (visitChildren children path).filter (fun e => e.2.depth < depth ∨ depth = 0)

@[simp] theorem sizeQ_visitChildren (children : List Inst) (path : DotPath) :
    sizeQ (visitChildren children path) = Inst.size.sizeList children := by
  induction children with
  | nil => simp [visitChildren]
  | cons c cs ih => simp [visitChildren, sizeQ] at ih ⊢; omega

theorem sizeQ_keptChildren (depth : Nat) (children : List Inst) (path : DotPath) :
    sizeQ (keptChildren depth children path) ≤ Inst.size.sizeList children := by
  calc sizeQ (keptChildren depth children path)
      ≤ sizeQ (visitChildren children path) := by
        simp only [sizeQ, keptChildren]
        exact List.Sublist.sum_le_sum
          (List.Sublist.map _ (List.filter_sublist _)) (by intro x hx; positivity)
    _ = Inst.size.sizeList children := sizeQ_visitChildren children path

@[simp] theorem sizeQ_reverse (q : List Entry) : sizeQ q.reverse = sizeQ q := by
  simp [sizeQ, List.sum_reverse]

/-- The full visit schedule of the work-stack loop, ignoring the visitor. -/
def enumAux (depth : Nat) : List Entry → List Entry
  | [] => []
  | (cur, path) :: rest =>
      visitChildren cur.children path ++
        enumAux depth ((keptChildren depth cur.children path).reverse ++ rest)
termination_by q => sizeQ q
decreasing_by
  have h1 := sizeQ_keptChildren depth cur.children path
  have h2 := Inst.size_children cur
  simp
  omega

/-- Replay of a visitor over a visit schedule: visits entries in order,
threading the closure state, and stops right after the first `Break`.
Returns the final state, the visited prefix, and whether a `Break` occurred. -/
def breakRun {σ : Type} (pred : σ → Inst → DotPath → σ × ForEachAction) :
    σ → List Entry → σ × List Entry × Bool
  | s, [] => (s, [], false)
  | s, (n, p) :: rest =>
      match pred s n p with
      | (s', .brk) => (s', [(n, p)], true)
      | (s', .cont) =>
          let r := breakRun pred s' rest
          (r.1, (n, p) :: r.2.1, r.2.2)

theorem breakRun_append {σ : Type} (pred : σ → Inst → DotPath → σ × ForEachAction)
    (s : σ) (l₁ l₂ : List Entry) :
    breakRun pred s (l₁ ++ l₂) =
      (match breakRun pred s l₁ with
       | (s₁, v₁, true) => (s₁, v₁, true)
       | (s₁, v₁, false) =>
          let r := breakRun pred s₁ l₂
          (r.1, v₁ ++ r.2.1, r.2.2)) := by
  induction l₁ generalizing s with
  | nil => simp [breakRun]
  | cons e rest ih =>
      rcases e with ⟨n, p⟩
      simp only [List.cons_append, breakRun]
      rcases hp : pred s n p with ⟨s', a⟩
      cases a with
      | brk => simp
      | cont =>
          simp only
          have ha : rest.append l₂ = rest ++ l₂ := rfl
          rw [ha, ih s']
          rcases hb : breakRun pred s' rest with ⟨s₁, v₁, b⟩
          cases b <;> simp [hb]

/-- `forChildren` agrees with replaying the visitor over the children's visit
entries; when no `Break` occurs the updated stack is the reversed kept
children on top of the incoming stack. -/
theorem forChildren_eq_breakRun {σ : Type} (pred : σ → Inst → DotPath → σ × ForEachAction)
    (depth : Nat) (path : DotPath) (cs : List Inst) (queue : List Entry) (s : σ) :
    forChildren pred depth path cs queue s =
      (match breakRun pred s (visitChildren cs path) with
       | (s', vs, true) => (s', vs, none)
       | (s', vs, false) => (s', vs, some ((keptChildren depth cs path).reverse ++ queue))) := by
  induction cs generalizing queue s with
  | nil => simp [forChildren, visitChildren, breakRun, keptChildren]
  | cons c cs ih =>
      simp only [forChildren, visitChildren, List.map_cons, breakRun]
      rcases hp : pred s c (path.push c.name) with ⟨s', a⟩
      cases a with
      | brk => simp
      | cont =>
          simp only
          rw [ih]
          have hkept : keptChildren depth (c :: cs) path =
              (if path.depth + 1 < depth ∨ depth = 0
                then [(c, path.push c.name)] else []) ++ keptChildren depth cs path := by
            simp only [keptChildren, visitChildren, List.map_cons, List.filter_cons]
            by_cases hd : path.depth + 1 < depth ∨ depth = 0
            · simp [hd]
            · simp [hd]
          rcases hb : breakRun pred s' (visitChildren cs path) with ⟨s₁, v₁, b⟩
          simp only [visitChildren] at hb
          cases b with
          | true => simp [hb]
          | false =>
              by_cases hd : path.depth + 1 < depth ∨ depth = 0
              · simp [hkept, hd, hb]
              · simp [hkept, hd, hb]

theorem enumAux_nil (depth : Nat) : enumAux depth [] = [] := by
  rw [enumAux]

theorem enumAux_cons (depth : Nat) (cur : Inst) (path : DotPath) (rest : List Entry) :
    enumAux depth ((cur, path) :: rest) =
      visitChildren cur.children path ++
        enumAux depth ((keptChildren depth cur.children path).reverse ++ rest) := by
  rw [enumAux]

theorem foreachAux_cons_none {σ : Type} (pred : σ → Inst → DotPath → σ × ForEachAction)
    (depth : Nat) (cur : Inst) (path : DotPath) (rest : List Entry) (s s' : σ)
    (vs : List Entry)
    (h : forChildren pred depth path cur.children rest s = (s', vs, none)) :
    foreachAux pred depth ((cur, path) :: rest) s = (s', vs) := by
  unfold foreachAux
  split <;> simp_all

theorem foreachAux_cons_some {σ : Type} (pred : σ → Inst → DotPath → σ × ForEachAction)
    (depth : Nat) (cur : Inst) (path : DotPath) (rest : List Entry) (s s' : σ)
    (vs queue' : List Entry)
    (h : forChildren pred depth path cur.children rest s = (s', vs, some queue')) :
    foreachAux pred depth ((cur, path) :: rest) s =
      ((foreachAux pred depth queue' s').1, vs ++ (foreachAux pred depth queue' s').2) := by
  have key : ∀ (r : σ × List Entry), foreachAux pred depth queue' s' = r →
      foreachAux pred depth ((cur, path) :: rest) s = (r.1, vs ++ r.2) := by
    intro r hr
    unfold foreachAux
    split <;> simp_all
  exact key _ rfl

/-- The faithful work-stack loop equals replaying the visitor over the full
visit schedule. -/
theorem foreachAux_eq_breakRun_enumAux {σ : Type}
    (pred : σ → Inst → DotPath → σ × ForEachAction) (depth : Nat)
    (queue : List Entry) (s : σ) :
    foreachAux pred depth queue s =
      (let r := breakRun pred s (enumAux depth queue); (r.1, r.2.1)) := by
  induction queue, s using foreachAux.induct pred depth with
  | case1 s => simp [foreachAux, enumAux_nil, breakRun]
  | case2 cur path rest s s' vs h =>
      rw [foreachAux_cons_none pred depth cur path rest s s' vs h]
      rw [forChildren_eq_breakRun] at h
      rw [enumAux_cons, breakRun_append]
      rcases hb : breakRun pred s (visitChildren cur.children path) with ⟨s₁, v₁, b⟩
      rw [hb] at h
      cases b with
      | true =>
          simp only [Prod.mk.injEq] at h
          simp [h.1, h.2.1]
      | false => simp at h
  | case3 cur path rest s s' vs queue' h ih =>
      rw [foreachAux_cons_some pred depth cur path rest s s' vs queue' h]
      rw [forChildren_eq_breakRun] at h
      rw [enumAux_cons, breakRun_append]
      rcases hb : breakRun pred s (visitChildren cur.children path) with ⟨s₁, v₁, b⟩
      rw [hb] at h
      cases b with
      | true => simp at h
      | false =>
          simp only [Prod.mk.injEq, Option.some.injEq] at h
          obtain ⟨h1, h2, h3⟩ := h
          subst h1
          subst h2
          subst h3
          rw [ih]

/-! ### Properties of the replay -/

/-- The visited entries are a prefix of the schedule. -/
theorem breakRun_visits_prefix {σ : Type} (pred : σ → Inst → DotPath → σ × ForEachAction)
    (s : σ) (l : List Entry) : (breakRun pred s l).2.1.IsPrefix l := by
  induction l generalizing s with
  | nil => simp [breakRun]
  | cons e rest ih =>
      rcases e with ⟨n, p⟩
      simp only [breakRun]
      rcases hp : pred s n p with ⟨s', a⟩
      cases a with
      | brk => simp
      | cont => simpa using ih s'

/-- When the visitor never asks to stop, the replay visits the whole
schedule and the final state is a left fold of the visitor over it. -/
theorem breakRun_no_break {σ : Type} (pred : σ → Inst → DotPath → σ × ForEachAction)
    (hc : ∀ s n p, (pred s n p).2 = ForEachAction.cont)
    (s : σ) (l : List Entry) :
    breakRun pred s l = (l.foldl (fun acc e => (pred acc e.1 e.2).1) s, l, false) := by
  induction l generalizing s with
  | nil => simp [breakRun]
  | cons e rest ih =>
      rcases e with ⟨n, p⟩
      simp only [breakRun]
      rcases hp : pred s n p with ⟨s', a⟩
      have := hc s n p
      rw [hp] at this
      cases a with
      | brk => simp at this
      | cont => simp [ih s', hp]

/-- The sequence of actions the visitor returns when replayed over a list of
entries from a given starting state. -/
def actionsTrace {σ : Type} (pred : σ → Inst → DotPath → σ × ForEachAction) :
    σ → List Entry → List ForEachAction
  | _, [] => []
  | s, (n, p) :: rest => (pred s n p).2 :: actionsTrace pred (pred s n p).1 rest

/-- If, replayed over the entries that `breakRun` actually visited, the
visitor returns `Break` at position `i`, then position `i` is the very last
visit: nothing is visited after a `Break`. -/
theorem breakRun_brk_is_last {σ : Type} (pred : σ → Inst → DotPath → σ × ForEachAction)
    (s : σ) (l : List Entry) (i : Nat)
    (h : (actionsTrace pred s (breakRun pred s l).2.1).get? i = some ForEachAction.brk) :
    (breakRun pred s l).2.1.length = i + 1 := by
  induction l generalizing s i with
  | nil => simp [breakRun, actionsTrace] at h
  | cons e rest ih =>
      rcases e with ⟨n, p⟩
      simp only [breakRun] at h ⊢
      rcases hp : pred s n p with ⟨s', a⟩
      rw [hp] at h
      cases a with
      | brk =>
          simp only [actionsTrace, hp] at h
          rcases i with _ | j
          · simp
          · simp at h
      | cont =>
          simp only [actionsTrace, hp] at h ⊢
          rcases i with _ | j
          · simp at h
          · simp only [List.get?_cons_succ] at h
            have := ih s' j h
            simp [this]

/-! ### The schedule against the structural descendant lists -/

theorem descList_eq_flatMap (cs : List Inst) :
    descList cs = cs.flatMap (fun c => c :: descList c.children) := by
  induction cs with
  | nil => rw [descList]; simp
  | cons c cs ih => rw [descList]; simp [ih]

@[simp] theorem descAtMost_zero (cs : List Inst) : descAtMost 0 cs = [] := by
  rw [descAtMost]

theorem descAtMost_succ (k : Nat) (cs : List Inst) :
    descAtMost (k + 1) cs = cs.flatMap (fun c => c :: descAtMost k c.children) := by
  induction cs with
  | nil => rw [descAtMost]; simp
  | cons c cs ih => rw [descAtMost]; simp [ih]

theorem cons_flatMap_perm {α : Type} (f : α → List α) (l : List α) :
    List.Perm (l.flatMap (fun c => c :: f c)) (l ++ l.flatMap f) := by
  induction l with
  | nil => simp
  | cons c cs ih =>
      simp only [List.flatMap_cons, List.cons_append]
      refine List.Perm.cons c ?_
      refine List.Perm.trans (List.Perm.append_left (f c) ih) ?_
      show List.Perm (f c ++ (cs ++ cs.flatMap f)) (cs ++ (f c ++ cs.flatMap f))
      · 
            rw [← List.append_assoc, ← List.append_assoc]
            exact List.Perm.append_right _ (List.perm_append_comm)

theorem flatMapVisitChildren {β : Type} (cs : List Inst) (path : DotPath)
    (g : Inst → DotPath → List β) :
    (visitChildren cs path).flatMap (fun e => g e.1 e.2) =
      cs.flatMap (fun c => g c (path.push c.name)) := by
  induction cs with
  | nil => rfl
  | cons c cs ih =>
      simp only [visitChildren, List.map_cons, List.flatMap_cons] at ih ⊢
      rw [ih]

@[simp] theorem visitChildren_map_fst (cs : List Inst) (path : DotPath) :
    (visitChildren cs path).map Prod.fst = cs := by
  induction cs with
  | nil => rfl
  | cons c cs ih => simp only [visitChildren, List.map_cons] at ih ⊢; simp [ih]

theorem keptChildren_zero (cs : List Inst) (path : DotPath) :
    keptChildren 0 cs path = visitChildren cs path := by
  simp [keptChildren]

theorem keptChildren_lt (d : Nat) (cs : List Inst) (path : DotPath)
    (h : path.depth + 1 < d) : keptChildren d cs path = visitChildren cs path := by
  unfold keptChildren visitChildren
  rw [List.filter_eq_self.mpr]
  intro e he
  simp only [List.mem_map] at he
  obtain ⟨c, _, rfl⟩ := he
  simp [h]

theorem keptChildren_eq_depth (d : Nat) (cs : List Inst) (path : DotPath)
    (hd : 0 < d) (h : path.depth + 1 = d) : keptChildren d cs path = [] := by
  unfold keptChildren visitChildren
  rw [List.filter_eq_nil_iff]
  intro e he
  simp only [List.mem_map] at he
  obtain ⟨c, _, rfl⟩ := he
  simp
  omega

/-- With depth bound 0 (unbounded), the schedule enumerates, for each stack
entry, exactly the strict descendants of that entry's node. -/
theorem enumAux_zero_perm (q : List Entry) :
    List.Perm ((enumAux 0 q).map Prod.fst) (q.flatMap (fun e => e.1.descendants)) := by
  induction q using enumAux.induct 0 with
  | case1 => simp [enumAux_nil]
  | case2 cur path rest ih =>
      rw [enumAux_cons, keptChildren_zero]
      rw [keptChildren_zero] at ih
      simp only [List.map_append, List.flatMap_cons, visitChildren_map_fst]
      refine List.Perm.trans (List.Perm.append_left _ ih) ?_
      simp only [List.flatMap_append]
      have hrev : List.Perm
          ((visitChildren cur.children path).reverse.flatMap (fun e => e.1.descendants))
          ((visitChildren cur.children path).flatMap (fun e => e.1.descendants)) :=
        List.Perm.flatMap_right _ (List.reverse_perm _)
      refine List.Perm.trans (List.Perm.append_left _ (List.Perm.append hrev (List.Perm.refl _))) ?_
      rw [← List.append_assoc]
      refine List.Perm.append ?_ (List.Perm.refl _)
      have hb : (visitChildren cur.children path).flatMap (fun e => e.1.descendants) =
          cur.children.flatMap (fun c => descList c.children) := by
        rw [flatMapVisitChildren cur.children path (fun c _ => c.descendants)]
        rfl
      rw [hb, Inst.descendants, descList_eq_flatMap]
      exact (cons_flatMap_perm _ _).symm

/-- With a positive depth bound `d`, provided every stack entry sits at path
depth `< d`, the schedule enumerates, for each entry, exactly the nodes at
most `d - depth(entry)` levels below it. -/
theorem enumAux_pos_perm (d : Nat) (hd : 0 < d) (q : List Entry)
    (hq : ∀ e ∈ q, e.2.depth < d) :
    List.Perm ((enumAux d q).map Prod.fst)
      (q.flatMap (fun e => descUpTo (d - e.2.depth) e.1)) := by
  induction q using enumAux.induct d with
  | case1 => simp [enumAux_nil]
  | case2 cur path rest ih =>
      rw [enumAux_cons]
      simp only [List.map_append, List.flatMap_cons, visitChildren_map_fst]
      have hpath : path.depth < d := hq (cur, path) (by simp)
      by_cases hlt : path.depth + 1 < d
      · rw [keptChildren_lt d cur.children path hlt] at ih ⊢
        have hq' : ∀ e ∈ (visitChildren cur.children path).reverse ++ rest, e.2.depth < d := by
          intro e he
          rcases List.mem_append.mp he with h1 | h2
          · have := List.mem_reverse.mp h1
            simp only [visitChildren, List.mem_map] at this
            obtain ⟨c, _, rfl⟩ := this
            simpa using hlt
          · exact hq e (List.mem_cons_of_mem _ h2)
        refine List.Perm.trans (List.Perm.append_left _ (ih hq')) ?_
        simp only [List.flatMap_append]
        have hrev : List.Perm
            ((visitChildren cur.children path).reverse.flatMap
              (fun e => descUpTo (d - e.2.depth) e.1))
            ((visitChildren cur.children path).flatMap (fun e => descUpTo (d - e.2.depth) e.1)) :=
          List.Perm.flatMap_right _ (List.reverse_perm _)
        refine List.Perm.trans
          (List.Perm.append_left _ (List.Perm.append hrev (List.Perm.refl _))) ?_
        rw [← List.append_assoc]
        refine List.Perm.append ?_ (List.Perm.refl _)
        have hb : (visitChildren cur.children path).flatMap (fun e => descUpTo (d - e.2.depth) e.1) =
            cur.children.flatMap (fun c => descUpTo (d - path.depth - 1) c) := by
          rw [flatMapVisitChildren cur.children path (fun c p => descUpTo (d - p.depth) c)]
          simp only [DotPath.depth_push, Nat.sub_sub]
        rw [hb]
        have hk : d - path.depth = (d - path.depth - 1) + 1 := by omega
        rw [descUpTo, hk, descAtMost_succ]
        exact (cons_flatMap_perm _ _).symm
      · have heq : path.depth + 1 = d := by omega
        rw [keptChildren_eq_depth d cur.children path hd heq] at ih ⊢
        simp only [List.reverse_nil, List.nil_append] at ih ⊢
        have hq' : ∀ e ∈ rest, e.2.depth < d := fun e he => hq e (List.mem_cons_of_mem _ he)
        refine List.Perm.trans (List.Perm.append_left _ (ih hq')) ?_
        refine List.Perm.append ?_ (List.Perm.refl _)
        have hk : d - path.depth = 1 := by omega
        rw [descUpTo, hk, descAtMost_succ]
        have hall : ∀ l : List Inst, l.flatMap (fun c => c :: descAtMost 0 c.children) = l := by
          intro l
          induction l with
          | nil => rfl
          | cons c cs ihc => simp [descAtMost_zero, ihc]
        rw [hall]

/-- With a positive depth bound, every scheduled visit happens at path depth
at most the bound, provided every stack entry sits strictly below it. -/
theorem enumAux_depth_le (d : Nat) (hd : 0 < d) (q : List Entry)
    (hq : ∀ e ∈ q, e.2.depth < d) :
    ∀ v ∈ enumAux d q, v.2.depth ≤ d := by
  induction q using enumAux.induct d with
  | case1 => simp [enumAux_nil]
  | case2 cur path rest ih =>
      intro v hv
      rw [enumAux_cons] at hv
      have hpath : path.depth < d := hq (cur, path) (by simp)
      rcases List.mem_append.mp hv with h1 | h2
      · simp only [visitChildren, List.mem_map] at h1
        obtain ⟨c, _, rfl⟩ := h1
        simp
        omega
      · refine ih ?_ v h2
        intro e he
        rcases List.mem_append.mp he with h3 | h4
        · have := List.mem_reverse.mp h3
          simp only [keptChildren, List.mem_filter, visitChildren, List.mem_map] at this
          obtain ⟨⟨c, _, rfl⟩, hcond⟩ := this
          simp only [DotPath.depth_push, decide_eq_true_eq] at hcond
          simp only [DotPath.depth_push]
          rcases hcond with h5 | h6
          · exact h5
          · omega
        · exact hq e (List.mem_cons_of_mem _ h4)

/-- The depth-bounded descendant list is a sublist of the full one. -/
theorem descAtMost_sublist (d : Nat) (cs : List Inst) :
    (descAtMost d cs).Sublist (descList cs) := by
  induction d, cs using descAtMost.induct with
  | case1 cs => simp [descAtMost_zero]
  | case2 d => rw [descAtMost]; simp
  | case3 d c cs ih1 ih2 =>
      rw [descAtMost, descList]
      exact List.Sublist.cons₂ c (List.Sublist.append ih1 ih2)

/-! ## `error.rs` — the `Problem` taxonomy

Payloads carried by external crates' error types are opaque (`Nat`); the
`io::Error` payload of `IOError` is dropped, keeping the static context
string the code attaches. -/

inductive Problem where
  | invalidPath
  | rfdCancel
  | ioError (context : String)
  | binaryDecodeError (e : Nat)
  | xmlDecodeError (e : Nat)
  | binaryEncodeError (e : Nat)
  | xmlEncodeError (e : Nat)
  | invalidExtension (path : String)
  | noMainSource
  | noScriptSource (name : String)
  | transpilerError (errors : List Nat)
  deriving Repr, DecidableEq

/-! ## `dom/extension.rs` — `find_first_child_class` -/

/-- `WeakDom::find_first_child_class`: a `foreach_descendant` run whose
closure records the first instance whose class tag satisfies the predicate
and breaks. -/
def find_first_child_class (parent : Inst) (class_predicate : String → Bool)
    (depth : Nat) : Option Nat :=
  (foreachDescendant
    (fun result child _ =>
      if class_predicate child.className then (some child.referent, ForEachAction.brk)
      else (result, ForEachAction.cont))
    none parent depth).1

/-- The find-first closure, replayed over any schedule, computes the first
match of the schedule (or keeps the incoming state). -/
theorem breakRun_findFirst (cp : String → Bool) (l : List Entry) (s0 : Option Nat) :
    (breakRun
      (fun result child _ =>
        if cp child.className then (some child.referent, ForEachAction.brk)
        else (result, ForEachAction.cont))
      s0 l).1 =
      (match l.find? (fun e => cp e.1.className) with
       | some e => some e.1.referent
       | none => s0) := by
  induction l generalizing s0 with
  | nil => simp [breakRun]
  | cons e rest ih =>
      rcases e with ⟨n, p⟩
      simp only [breakRun]
      by_cases hc : cp n.className
      · simp [hc, List.find?_cons_of_pos]
      · simp only [hc, if_neg, ite_false]
        rw [List.find?_cons_of_neg _ (by simp [hc])]
        exact ih s0

/-! ## `lib.rs` — `DomTranspiler` -/

/-- The class predicate of `DomTranspiler::new`:
`matches!(class, "ModuleScript" | "Script" | "LocalScript")`. -/
def isScriptClass (class_tag : String) : Bool :=
  class_tag == "ModuleScript" || class_tag == "Script" || class_tag == "LocalScript"

/-- `DomTranspiler` (`lib.rs`).  The `WeakDom` is modelled by its root
instance with the subtree resolved. -/
structure DomTranspiler where
  tree : Inst
  source_script : Nat
  exclude_libs : Bool

/-- `DomTranspiler::new`: locate the entry-point script within depth 2 of
the tree root, or fail with `NoMainSource`. -/
def DomTranspiler.new (tree : Inst) : Except Problem DomTranspiler :=
  match find_first_child_class tree isScriptClass 2 with
  | none => Except.error Problem.noMainSource
  | some r => Except.ok { tree := tree, source_script := r, exclude_libs := true }

/-- `DomTranspiler::is_excluded`, with the external `glob_match` crate as a
parameter `gm pattern path`; the three patterns are the configured
exclusion globs. -/
def is_excluded (exclude_libs : Bool) (gm : String → String → Bool) (p : String) : Bool :=
  exclude_libs &&
    (gm "**/[Rr][eo]act*/**" p || gm "**/*jsdotlua*/**" p || gm "**/Fusion/**" p)

/-- The collection-phase closure of `DomTranspiler::transpile_tree`: counts
every `ModuleScript` descendant and pushes the non-excluded ones (referent
and path depth) onto the script stack.  State: (total_count, script_stack);
Vec push is modelled by appending at the end. -/
def collectStep (exclude_libs : Bool) (gm : String → String → Bool)
    (s : Nat × List (Nat × Nat)) (child : Inst) (path : DotPath) :
    (Nat × List (Nat × Nat)) × ForEachAction :=
  if child.className == "ModuleScript" then
    let counted := (s.1 + 1, s.2)
    if !(is_excluded exclude_libs gm path.path_string) then
      ((counted.1, counted.2 ++ [(child.referent, path.depth)]), ForEachAction.cont)
    else (counted, ForEachAction.cont)
  else (s, ForEachAction.cont)

/-- The collection phase of `DomTranspiler::transpile_tree` (its
`foreach_descendant` call over the entry-point's subtree, unbounded). -/
def collectPhase (t : DomTranspiler) (gm : String → String → Bool)
    (source : Inst) : (Nat × List (Nat × Nat)) × List Entry :=
  foreachDescendant (collectStep t.exclude_libs gm) (0, []) source 0

/-! ## The `full_moon` syntax-tree fragment the rewrite visitor touches

Tokens carry their kind plus leading and trailing trivia (whitespace and
comments); byte positions are immaterial to the rewrites and dropped.
`Punct α` models `Punctuated<α>`: each element with its optional
trailing punctuation token (`Pair::End x` is `(x, none)`). -/

/-- The symbol kinds the embedded code constructs. -/
inductive SymKind where
  | dot
  | colon
  | equal
  | leftParen
  | rightParen
  deriving Repr, DecidableEq

/-- `full_moon::tokenizer::TokenType`, restricted to the kinds the code
constructs or observes. -/
inductive TokenKind where
  | identifier (s : String)
  | stringLiteral (literal : String)
  | symbol (k : SymKind)
  | whitespace (characters : String)
  | singleLineComment (comment : String)
  | eof
  deriving Repr, DecidableEq

/-- `full_moon::tokenizer::TokenReference`: a token with its trivia. -/
structure TokenReference where
  leading : List TokenKind
  tok : TokenKind
  trailing : List TokenKind
  deriving Repr, DecidableEq

/-- `TokenRefExt::new_type` (`extension.rs`): a token with no trivia. -/
def TokenReference.new_type (token_type : TokenKind) : TokenReference :=
  { leading := [], tok := token_type, trailing := [] }

/-- `TokenRefExt::new_identifier` (`extension.rs`). -/
def TokenReference.new_identifier (identifier : String) : TokenReference :=
  TokenReference.new_type (TokenKind.identifier identifier)

/-- The `trivia` helper of `extension.rs`: an optional whitespace string as
a trivia list. -/
def trivia (whitespace : Option String) : List TokenKind :=
  match whitespace with
  | some whitespace => [TokenKind.whitespace whitespace]
  | none => []

/-- `TokenRefExt::with_trivia` (`extension.rs`): replace both trivia lists. -/
def TokenReference.with_trivia (tr : TokenReference)
    (leading_whitespace trailing_whitespace : Option String) : TokenReference :=
  { leading := trivia leading_whitespace, tok := tr.tok,
    trailing := trivia trailing_whitespace }

/-- `full_moon`'s `TokenReference::with_token`: replace the token, keep the
trivia. -/
def TokenReference.with_token (tr : TokenReference) (token : TokenKind) : TokenReference :=
  { tr with tok := token }

/-- `TokenRefExt::identifier` (`extension.rs`): the text of an identifier or
string-literal token. -/
def TokenReference.identifier (tr : TokenReference) : Option String :=
  match tr.tok with
  | TokenKind.identifier s => some s
  | TokenKind.stringLiteral literal => some literal
  | _ => none

/-- `Punctuated<α>`. -/
abbrev Punct (α : Type) := List (α × Option TokenReference)

mutual

/-- `full_moon::ast::Expression`; forms the visitor neither constructs nor
inspects are collapsed into opaque tags. -/
inductive Expression where
  | functionCall (fc : FunctionCall)
  | symbol (tok : TokenReference)
  | stringLit (tok : TokenReference)
  | var (v : Var)
  | otherExpr (tag : Nat)

/-- `full_moon::ast::Prefix`. -/
inductive Prefix where
  | name (tok : TokenReference)
  | expr (e : Expression)

/-- `full_moon::ast::Var`. -/
inductive Var where
  | name (tok : TokenReference)
  | expression (ve : VarExpression)

/-- `full_moon::ast::VarExpression`: a prefix and suffixes. -/
inductive VarExpression where
  | mk (pfx : Prefix) (suffixes : List Suffix)

/-- `full_moon::ast::FunctionCall`: a prefix and suffixes. -/
inductive FunctionCall where
  | mk (pfx : Prefix) (suffixes : List Suffix)

/-- `full_moon::ast::Suffix`. -/
inductive Suffix where
  | index (i : Index)
  | call (c : Call)

/-- `full_moon::ast::Index`. -/
inductive Index where
  | dot (dotTok : TokenReference) (nameTok : TokenReference)
  | brackets (openB closeB : TokenReference) (e : Expression)

/-- `full_moon::ast::Call`. -/
inductive Call where
  | methodCall (mc : MethodCall)
  | anonymousCall (args : FunctionArgs)

/-- `full_moon::ast::MethodCall`: colon token, method name, arguments. -/
inductive MethodCall where
  | mk (colonTok : TokenReference) (nameTok : TokenReference) (args : FunctionArgs)

/-- `full_moon::ast::FunctionArgs`; `Parentheses` keeps the `ContainedSpan`
tokens, `String` the literal token; table-constructor arguments are opaque
(the code neither reads nor builds their fields). -/
inductive FunctionArgs where
  | parentheses (openP closeP : TokenReference)
      (arguments : List (Expression × Option TokenReference))
  | stringArg (tok : TokenReference)
  | tableConstructorArgs (tag : Nat)

end

def FunctionCall.pfx : FunctionCall → Prefix
  | .mk p _ => p

def FunctionCall.suffixes : FunctionCall → List Suffix
  | .mk _ s => s

def MethodCall.nameTok : MethodCall → TokenReference
  | .mk _ n _ => n

def MethodCall.args : MethodCall → FunctionArgs
  | .mk _ _ a => a

def VarExpression.pfx : VarExpression → Prefix
  | .mk p _ => p

def VarExpression.suffixes : VarExpression → List Suffix
  | .mk _ s => s

/-- `GLOBAL_VAR_NAME` (`extension.rs`). -/
def GLOBAL_VAR_NAME : String := "_proxyGlobals"

/-- The `index_global!` macro: `concat!("_proxyGlobals", ".", s)`. -/
def index_global (s : String) : String := "_proxyGlobals" ++ "." ++ s

/-- The `nth_arg_string!` macro (`extension.rs`): the `n`-th argument's
string content, when that argument is a string literal. -/
def nth_arg_string (args : FunctionArgs) (n : Nat) : Option String :=
  match args with
  | FunctionArgs.parentheses _ _ arguments =>
      match (arguments.map Prod.fst).get? n with
      | some (Expression.stringLit token) => token.identifier
      | _ => none
  | FunctionArgs.stringArg token => if n == 0 then token.identifier else none
  | _ => none

/-- `new_identifier_expression` (`extension.rs`): an identifier expression,
optionally reusing a token reference's trivia. -/
def new_identifier_expression (identifier : String)
    (token_reference : Option TokenReference) : Expression :=
  let token_type := TokenKind.identifier identifier
  Expression.symbol
    (match token_reference with
     | some token_reference => token_reference.with_token token_type
     | none => TokenReference.new_type token_type)

/-! ## `lib.rs` — the rewrite visitor (`visit_expression`) -/

/-- `Requires` (`lib.rs`): the per-script requirement flags
(`#[derive(Default)]`: all `false`). -/
structure Requires where
  globals : Bool
  plugin : Bool
  enums : Bool
  deriving Repr, DecidableEq

instance : Inhabited Requires where
  default := { globals := false, plugin := false, enums := false }

/-- `Requires::globals()`: the derived needs-globals-object flag. -/
def Requires.needsGlobals (r : Requires) : Bool := r.globals || (r.plugin || r.enums)

/-- The token whose trivia `visit_expression` grabs to preserve: the closing
parenthesis of the arguments, the string-argument token, or a fresh `Eof`
token. -/
def argsClosingToken (args : FunctionArgs) : TokenReference :=
  match args with
  | FunctionArgs.parentheses _ closeP _ => closeP
  | FunctionArgs.stringArg tok => tok
  | _ => TokenReference.mk [] TokenKind.eof []

/-- One iteration of the `for suf in function_call.suffixes()` loop of
`visit_expression`: `some` when the suffix is a method-call that triggers a
rewrite (returning the updated flags and the replacement expression),
`none` when the loop just moves on. -/
def suffixStep (req : Requires) (s : Suffix) : Option (Requires × Expression) :=
  match s with
  | Suffix.call (Call.methodCall mc) =>
      match mc.nameTok.identifier with
      | some nm =>
          let token_ref := argsClosingToken mc.args
          if nm == "FindFirstAncestorOfClass" || nm == "FindFirstAncestorWhichIsA" then
            if (nth_arg_string mc.args 0).any (fun a => a == "Plugin") then
              some ({ req with plugin := true },
                new_identifier_expression "plugin" (some token_ref))
            else none
          else if nm == "GetService" then
            some ({ req with globals := true },
              Expression.functionCall
                (FunctionCall.mk (Prefix.name (TokenReference.new_identifier GLOBAL_VAR_NAME))
                  [Suffix.index (Index.dot (TokenReference.new_type (TokenKind.symbol SymKind.dot))
                      (TokenReference.new_identifier "game")),
                    Suffix.call (Call.methodCall mc)]))
          else none
      | none => none
  | _ => none

/-- The whole suffix loop: the first triggering suffix wins. -/
def visitSuffixes (req : Requires) : List Suffix → Option (Requires × Expression)
  | [] => none
  | s :: rest =>
      match suffixStep req s with
      | some r => some r
      | none => visitSuffixes req rest

/-- `PluginProxyVisitor::visit_expression` (`lib.rs` lines 95–141), as the
per-node rewrite with the visitor's mutable flag state threaded explicitly
(the recursion over the whole tree is `full_moon`'s visitor machinery). -/
def visit_expression (req : Requires) (e : Expression) : Requires × Expression :=
  match e with
  | Expression.functionCall fc =>
      match visitSuffixes req fc.suffixes with
      | some r => r
      | none => (req, e)
  | _ => (req, e)

/-! ## `lib.rs` / `extension.rs` — statements and the requirement injector -/

/-- `full_moon::ast::LocalAssignment`, keeping the fields the code sets
(`LocalAssignment::new(name_list)`, `with_equal_token`, `with_expressions`);
the constant `local` keyword token is left implicit. -/
structure LocalAssignment where
  names : Punct TokenReference
  equalTok : Option TokenReference
  expressions : Punct Expression

/-- `full_moon::ast::Stmt`: the assembler only builds `LocalAssignment`
statements; every other statement form of the rewritten script is opaque. -/
inductive Stmt where
  | localAssignment (la : LocalAssignment)
  | otherStmt (tag : Nat)

/-- `full_moon::ast::LastStmt`, opaque: `transpile_source` only clones it. -/
inductive LastStmt where
  | node (tag : Nat)
  deriving Repr, DecidableEq

/-- `full_moon::ast::Block` as `transpile_source` uses it:
`stmts_with_semicolon` and `last_stmt_with_semicolon`. -/
structure Block where
  stmts : List (Stmt × Option TokenReference)
  lastStmt : Option (LastStmt × Option TokenReference)

/-- `new_local_assignment` (`extension.rs`). -/
def new_local_assignment (nm : String) (expression : Expression) : LocalAssignment :=
  { names := [(TokenReference.new_identifier nm, none)],
    equalTok := some ((TokenReference.new_type (TokenKind.symbol SymKind.equal)).with_trivia
      (some " ") (some " ")),
    expressions := [(expression, none)] }

/-- `new_global_require` (`extension.rs`):
`local _proxyGlobals = require(script.Parent⋯.Parent).Globals`. -/
def new_global_require (depth : Nat) : LocalAssignment :=
  let require_func :=
    FunctionCall.mk (Prefix.name (TokenReference.new_identifier "require"))
      [Suffix.call (Call.anonymousCall (FunctionArgs.parentheses
        (TokenReference.new_type (TokenKind.symbol SymKind.leftParen))
        (TokenReference.new_type (TokenKind.symbol SymKind.rightParen))
        [(new_identifier_expression (DotPath.new_ancestor_path depth).render none, none)]))]
  new_local_assignment GLOBAL_VAR_NAME
    (Expression.var (Var.expression (VarExpression.mk
      (Prefix.expr (Expression.functionCall require_func))
      [Suffix.index (Index.dot (TokenReference.new_type (TokenKind.symbol SymKind.dot))
        ((TokenReference.new_identifier "Globals").with_trivia none (some "\n")))])))

/-- Append trivia to a token reference's trailing trivia. -/
def TokenReference.appendTrailing (tr : TokenReference) (ts : List TokenKind) : TokenReference :=
  { tr with trailing := tr.trailing ++ ts }

/-- Modelled from the spec: the `UpdateTrailingTrivia` implementation
(`trivia.rs`, `FormatTriviaType::Append`) is not among the source files.
Per the design document the marker comment is attached as trailing trivia
to the final injected declaration, i.e. appended after the declaration's
last token.  Here: the last token of a suffix. -/
def suffixAppendTrailing (s : Suffix) (ts : List TokenKind) : Suffix :=
  match s with
  | Suffix.index (Index.dot d nm) => Suffix.index (Index.dot d (nm.appendTrailing ts))
  | Suffix.index (Index.brackets o c e) => Suffix.index (Index.brackets o (c.appendTrailing ts) e)
  | s => s

/-- Modelled from the spec (`trivia.rs` missing, see `suffixAppendTrailing`):
append trivia after the last suffix of a list. -/
def suffixesAppendTrailing (ts : List TokenKind) : List Suffix → List Suffix
  | [] => []
  | [s] => [suffixAppendTrailing s ts]
  | s :: rest => s :: suffixesAppendTrailing ts rest

/-- Modelled from the spec (`trivia.rs` missing, see `suffixAppendTrailing`):
append trivia after the last token of an expression, for the expression
shapes the injector emits. -/
def exprAppendTrailing (e : Expression) (ts : List TokenKind) : Expression :=
  match e with
  | Expression.symbol tr => Expression.symbol (tr.appendTrailing ts)
  | Expression.stringLit tr => Expression.stringLit (tr.appendTrailing ts)
  | Expression.var (Var.name tr) => Expression.var (Var.name (tr.appendTrailing ts))
  | Expression.var (Var.expression (VarExpression.mk p sufs)) =>
      Expression.var (Var.expression (VarExpression.mk p (suffixesAppendTrailing ts sufs)))
  | e => e

/-- Modelled from the spec (`trivia.rs` missing, see `suffixAppendTrailing`):
`Stmt::update_trailing_trivia(FormatTriviaType::Append(ts))`, appending
after the last token of the statement's last expression. -/
def Stmt.update_trailing_trivia (st : Stmt) (ts : List TokenKind) : Stmt :=
  match st with
  | Stmt.localAssignment la =>
      Stmt.localAssignment { la with
        expressions := (match la.expressions.reverse with
          | [] => la.expressions
          | (e, p) :: _ => la.expressions.dropLast ++ [(exprAppendTrailing e ts, p)]) }
  | st => st

/-- The marker comment token appended to the last injected declaration. -/
def autogenComment : TokenKind :=
  TokenKind.singleLineComment " Autogenerated with PluginProxy Transpiler\n\n"

/-- The `if let Some(last_req) = requires.last_mut()` update: mark the last
declaration with the marker comment (and reset its semicolon slot to
`None`, as the code does). -/
def markLastRequire : List (Stmt × Option TokenReference) → List (Stmt × Option TokenReference)
  | [] => []
  | [(st, _)] => [(st.update_trailing_trivia [autogenComment], none)]
  | p :: rest => p :: markLastRequire rest

/-- The requirement-injection tail of `DomTranspiler::transpile_source`
(`lib.rs` lines 337–378), taking the rewrite visitor's accumulated flags
and the rewritten block (the recursive `visit_ast` pass over the tree
belongs to the external `full_moon` visitor machinery; its per-expression
action is `visit_expression`). -/
def assembleRequires (requires : Requires) (path_depth : Nat) (ast : Block) : Block :=
  let reqs : List (Stmt × Option TokenReference) :=
    (if requires.needsGlobals && decide (path_depth > 0) then
      [(Stmt.localAssignment (new_global_require path_depth), none)] else []) ++
    (if requires.plugin || path_depth == 0 then
      [(Stmt.localAssignment (new_local_assignment "plugin"
        (Expression.symbol ((TokenReference.new_identifier (index_global "plugin")).with_trivia
          none (some "\n")))), none)] else []) ++
    (if requires.enums then
      [(Stmt.localAssignment (new_local_assignment "Enums"
        (Expression.symbol ((TokenReference.new_identifier (index_global "Enums")).with_trivia
          none (some "\n")))), none)] else [])
  if reqs.isEmpty then ast
  else { stmts := markLastRequire reqs ++ ast.stmts, lastStmt := ast.lastStmt }

/-- `DomTranspiler::transpile_source`, with the external `full_moon::parse`
and the crate-driven recursive visitor pass abstracted as one function
`parseVisit` from source text to either the parser's error list or the
visitor pass's result (accumulated flags and rewritten block). -/
def transpile_source (parseVisit : String → Except (List Nat) (Requires × Block))
    (source : String) (path_depth : Nat) : Except Problem Block :=
  match parseVisit source with
  | Except.error errors => Except.error (Problem.transpilerError errors)
  | Except.ok (requires, ast) => Except.ok (assembleRequires requires path_depth ast)

/-! ## `lib.rs` — `process_script` -/

/-- `HashMap::get` over the property bag (keys are unique in a `HashMap`;
the assoc list keeps the first binding for a key authoritative). -/
def getProp : List (String × Variant) → String → Option Variant
  | [], _ => none
  | (k, v) :: rest, key => if k == key then some v else getProp rest key

/-- The in-place write through `get_mut`: replace the first binding of the
key, leaving every other binding untouched (no insertion if absent, as
`get_mut` cannot create one). -/
def setProp : List (String × Variant) → String → Variant → List (String × Variant)
  | [], _, _ => []
  | (k, v) :: rest, key, newV =>
      if k == key then (k, newV) :: rest else (k, v) :: setProp rest key newV

def Inst.withClassName (i : Inst) (cls : String) : Inst :=
  match i with
  | .mk r n _ p c => .mk r n cls p c

def Inst.withProps (i : Inst) (props : List (String × Variant)) : Inst :=
  match i with
  | .mk r n cls _ c => .mk r n cls props c

/-- `DomTranspiler::process_script` (`lib.rs` lines 312–325).  The external
printer is the parameter `printAst` (`full_moon::print`), and `wrapMain`
abstracts `wrap_main_source` composed with that printer (its output string
is produced by the external printer over a synthesized tree).  On the Rust
error path nothing observable of the node survives the aborted run; the
model returns the error without a node. -/
def process_script (parseVisit : String → Except (List Nat) (Requires × Block))
    (printAst : Block → String) (wrapMain : Block → String)
    (script : Inst) (depth : Nat) : Except Problem Inst :=
  match getProp script.props "Source" with
  | some (Variant.str source_string) =>
      if depth == 0 then
        let script := script.withClassName "ModuleScript"
        match transpile_source parseVisit source_string depth with
        | Except.error e => Except.error e
        | Except.ok ast =>
            Except.ok (script.withProps (setProp script.props "Source"
              (Variant.str (wrapMain ast))))
      else
        match transpile_source parseVisit source_string depth with
        | Except.error e => Except.error e
        | Except.ok ast =>
            Except.ok (script.withProps (setProp script.props "Source"
              (Variant.str (printAst ast))))
  | _ => Except.error (Problem.noScriptSource script.name)

/-! ## `lib.rs` — file loading (`RbxFileType::from_path`, `from_file`)

The file system is a black box: `openOk p` says whether `fs::File::open`
succeeds on path `p`, and `decodeResult` is the external codec's outcome.
The model additionally logs, in order, every file-system operation performed
(`IOEvent`), so that "no I/O was attempted" is an inspectable statement. -/

inductive RbxFileType where
  | xml
  | binary
  deriving Repr, DecidableEq

/-- Split a character list at every occurrence of `c` (the pieces, in
order; an empty input yields one empty piece, like `String::split`). -/
def splitOnChar (c : Char) : List Char → List (List Char)
  | [] => [[]]
  | x :: xs =>
      let r := splitOnChar c xs
      if x = c then [] :: r
      else
        match r with
        | [] => [[x]]
        | y :: ys => (x :: y) :: ys

/-- Rust `Path::file_name()` over a path string: the component after the
last separator. -/
def fileNameChars (p : String) : List Char := (splitOnChar '/' p.data).getLastD []

/-- Rust `Path::extension()` over a path string: the part of the file name
after its final dot — `none` when the file name has no dot, or only the
leading dot of a hidden file. -/
def pathExtension (p : String) : Option String :=
  match splitOnChar '.' (fileNameChars p) with
  | [] => none
  | [_] => none
  | [[], _] => none
  | parts => parts.getLast?.map (fun cs => String.mk cs)

/-- `RbxFileType::from_path` (`lib.rs` lines 387–394): the file type read
off the path's extension; any other extension is `InvalidExtension`.
(`to_string_lossy` is the identity on the valid-unicode paths modelled
here.) -/
def RbxFileType.from_path (file_path : String) : Except Problem RbxFileType :=
  match pathExtension file_path with
  | some "rbxmx" => Except.ok RbxFileType.xml
  | some "rbxlx" => Except.ok RbxFileType.xml
  | some "rbxm" => Except.ok RbxFileType.binary
  | some "rbxl" => Except.ok RbxFileType.binary
  | _ => Except.error (Problem.invalidExtension file_path)

/-- A file-system operation `from_file` performs, in order. -/
inductive IOEvent where
  | openRead (path : String)
  | decodeStream (path : String) (ft : RbxFileType)
  deriving Repr, DecidableEq

/-- `from_file` (`lib.rs` lines 400–411), with its I/O trace: it opens the
input file first, only then checks the extension via `from_path`, then
hands the open stream to the matching decoder, and finally constructs the
transpiler.  `openOk` is the file system (`fs::File::open` success),
`decodeResult` the external codec. -/
def from_file (openOk : String → Bool)
    (decodeResult : RbxFileType → Except Nat Inst)
    (file_path : String) : Except Problem DomTranspiler × List IOEvent :=
  if !(openOk file_path) then
    (Except.error (Problem.ioError "read the place file"), [IOEvent.openRead file_path])
  else
    match RbxFileType.from_path file_path with
    | Except.error e => (Except.error e, [IOEvent.openRead file_path])
    | Except.ok ft =>
        match decodeResult ft with
        | Except.error e =>
            (Except.error (match ft with
              | RbxFileType.xml => Problem.xmlDecodeError e
              | RbxFileType.binary => Problem.binaryDecodeError e),
             [IOEvent.openRead file_path, IOEvent.decodeStream file_path ft])
        | Except.ok tree =>
            (match DomTranspiler.new tree with
              | Except.error e => Except.error e
              | Except.ok t => Except.ok t,
             [IOEvent.openRead file_path, IOEvent.decodeStream file_path ft])

/-! # The claims -/

/-! ## C9 — ancestor-path rendering -/

/-- `d` ascend steps in dotted rendering, as the spec describes them: the
concatenation of `d` copies of ".Parent". -/
def dotParents : Nat → String
  | 0 => ""
  | d + 1 => ".Parent" ++ dotParents d

theorem joinSep_parent (d : Nat) :
    joinSep "." (List.replicate (d + 1) "Parent") = "Parent" ++ dotParents d := by
  induction d with
  | zero => rfl
  | succ d ih =>
      rw [List.replicate_succ]
      rw [show List.replicate (d + 1) "Parent" = "Parent" :: List.replicate d "Parent" from
        List.replicate_succ ..]
      rw [show joinSep "." ("Parent" :: "Parent" :: List.replicate d "Parent") =
        "Parent" ++ "." ++ joinSep "." ("Parent" :: List.replicate d "Parent") from rfl]
      rw [← List.replicate_succ, ih]
      rw [String.append_assoc "Parent" "." ("Parent" ++ dotParents d)]
      rw [show ("." ++ ("Parent" ++ dotParents d) : String) =
        ("." ++ "Parent") ++ dotParents d from (String.append_assoc ..).symm]
      rfl

/-- C9: for every natural number `d`, the ancestor path built for depth `d`
renders in symbolic dotted form as the root token `script` followed by `d`
`.Parent` ascend steps joined by the dot separator; in particular depth 0
renders as the bare root token `"script"` and depth 2 as
`"script.Parent.Parent"`. -/
theorem c9_ancestor_path_render :
    (∀ d : Nat, (DotPath.new_ancestor_path d).render = "script" ++ dotParents d) ∧
      (DotPath.new_ancestor_path 0).render = "script" ∧
      (DotPath.new_ancestor_path 2).render = "script.Parent.Parent" := by
  refine ⟨?_, by decide, by decide⟩
  intro d
  cases d with
  | zero => rfl
  | succ d =>
      show (DotPath.new_ancestor_path (d + 1)).join "." = _
      rw [DotPath.join]
      rw [if_pos (by simp [DotPath.new_ancestor_path, List.replicate_succ])]
      show "script" ++ ("." ++ joinSep "." (List.replicate (d + 1) "Parent")) = _
      rw [joinSep_parent]
      rw [show ("." ++ ("Parent" ++ dotParents d) : String) =
        ("." ++ "Parent") ++ dotParents d from (String.append_assoc ..).symm]
      rfl

/-! ## C6 — traversal short-circuit -/

/-- C6: for every tree and visitor, if the visitor callback returns `Break`
at the `i`-th (0-based) visited node — that is, replaying the callback over
the recorded visit sequence yields `Break` at index `i` — then that node is
the last one visited: the whole traversal stops there, siblings included,
so the number of visits is exactly `i + 1`. -/
theorem c6_short_circuit {σ : Type} (pred : σ → Inst → DotPath → σ × ForEachAction)
    (s : σ) (parent : Inst) (depth : Nat) (i : Nat)
    (h : (actionsTrace pred s (foreachDescendant pred s parent depth).2).get? i =
      some ForEachAction.brk) :
    (foreachDescendant pred s parent depth).2.length = i + 1 := by
  unfold foreachDescendant at h ⊢
  rw [foreachAux_eq_breakRun_enumAux] at h ⊢
  exact breakRun_brk_is_last pred s _ i h

/-- The break-on-everything visitor used by concrete traversal scenarios. -/
def brkPred : Unit → Inst → DotPath → Unit × ForEachAction :=
  fun _ _ _ => ((), ForEachAction.brk)

/-- The continue-on-everything visitor used by concrete traversal
scenarios. -/
def contPred : Unit → Inst → DotPath → Unit × ForEachAction :=
  fun _ _ _ => ((), ForEachAction.cont)

/-- A concrete three-node tree: a root with two leaf children. -/
def leafA : Inst := Inst.mk 1 "A" "Folder" [] []

def leafB : Inst := Inst.mk 2 "B" "Folder" [] []

def rootAB : Inst := Inst.mk 0 "root" "Folder" [] [leafA, leafB]

theorem c6_short_circuit_witness :
    (actionsTrace brkPred () (foreachDescendant brkPred () rootAB 0).2).get? 0 =
        some ForEachAction.brk ∧
      (foreachDescendant brkPred () rootAB 0).2.length = 0 + 1 := by
  constructor
  · simp [foreachDescendant, foreachAux, forChildren, brkPred, rootAB, leafA, leafB,
      actionsTrace]
  · exact c6_short_circuit brkPred () rootAB 0 0
      (by simp [foreachDescendant, foreachAux, forChildren, brkPred, rootAB, leafA, leafB,
        actionsTrace])

/-! ## C5 — depth bound and coverage of `foreach_descendant` -/

/-- C5 as stated is false: with bound 0 a visitor that returns `Break` stops
the walk, so not every descendant is visited.  On the three-node tree, the
break-on-everything visitor with bound 0 leaves descendant `B`
(referent 2) unvisited. -/
theorem c5_counterexample :
    2 ∈ (descList rootAB.children).map Inst.referent ∧
      2 ∉ ((foreachDescendant brkPred () rootAB 0).2.map (fun v => v.1.referent)) := by
  constructor
  · simp [rootAB, leafA, leafB, Inst.children, Inst.referent, descList]
  · simp [foreachDescendant, foreachAux, forChildren, brkPred, rootAB, leafA, leafB,
      Inst.referent, Inst.children]

/-- C5, amended: for every tree and visitor, (i) with a positive bound `d`
every visited node has path depth at most `d`; (ii) since the dom's
referents are unique (stated as the nodup hypothesis on the descendant
referent list), no node is visited twice; (iii) with bound 0, *provided the
visitor never returns `Break`*, the callback is invoked exactly once on
every descendant of the starting node (the visited nodes are a permutation
of the descendant list). -/
theorem c5_depth_bound_and_coverage {σ : Type}
    (pred : σ → Inst → DotPath → σ × ForEachAction) (s : σ) (parent : Inst) (d : Nat) :
    (0 < d → ∀ v ∈ (foreachDescendant pred s parent d).2, v.2.depth ≤ d) ∧
      (((descList parent.children).map Inst.referent).Nodup →
        ((foreachDescendant pred s parent d).2.map (fun v => v.1.referent)).Nodup) ∧
      (d = 0 → (∀ st n p, (pred st n p).2 = ForEachAction.cont) →
        List.Perm ((foreachDescendant pred s parent d).2.map Prod.fst)
          (descList parent.children)) := by
  have hvis : (foreachDescendant pred s parent d).2 =
      (breakRun pred s (enumAux d [(parent, default)])).2.1 := by
    unfold foreachDescendant
    rw [foreachAux_eq_breakRun_enumAux]
  have hpre := breakRun_visits_prefix pred s (enumAux d [(parent, default)])
  refine ⟨?_, ?_, ?_⟩
  · intro hd v hv
    rw [hvis] at hv
    exact enumAux_depth_le d hd [(parent, default)] (by simp [hd]) v (hpre.subset hv)
  · intro hnd
    rw [hvis]
    have hsub : ((breakRun pred s (enumAux d [(parent, default)])).2.1.map
        (fun v => v.1.referent)).Sublist
        ((enumAux d [(parent, default)]).map (fun v => v.1.referent)) :=
      List.Sublist.map _ hpre.sublist
    refine hsub.nodup ?_
    have hmapmap : ∀ l : List Entry,
        l.map (fun v => v.1.referent) = (l.map Prod.fst).map Inst.referent := by
      intro l
      rw [List.map_map]
      rfl
    rw [hmapmap]
    rcases Nat.eq_zero_or_pos d with hd | hd
    · subst hd
      have hperm := (enumAux_zero_perm [(parent, default)]).map Inst.referent
      rw [List.Perm.nodup_iff hperm]
      simpa [Inst.descendants] using hnd
    · have hperm := (enumAux_pos_perm d hd [(parent, default)] (by simp [hd])).map Inst.referent
      rw [List.Perm.nodup_iff hperm]
      have : ((descAtMost d parent.children).map Inst.referent).Nodup :=
        ((descAtMost_sublist d parent.children).map Inst.referent).nodup hnd
      simpa [descUpTo] using this
  · intro hd hc
    subst hd
    rw [hvis, breakRun_no_break pred hc]
    have hperm := enumAux_zero_perm [(parent, default)]
    refine hperm.trans ?_
    simp [Inst.descendants]

theorem c5_witness :
    (∀ v ∈ (foreachDescendant contPred () rootAB 1).2, v.2.depth ≤ 1) ∧
      ((foreachDescendant contPred () rootAB 0).2.map (fun v => v.1.referent)).Nodup ∧
      List.Perm ((foreachDescendant contPred () rootAB 0).2.map Prod.fst)
        (descList rootAB.children) := by
  refine ⟨(c5_depth_bound_and_coverage contPred () rootAB 1).1 (by decide),
    (c5_depth_bound_and_coverage contPred () rootAB 0).2.1 ?_,
    (c5_depth_bound_and_coverage contPred () rootAB 0).2.2 rfl (fun _ _ _ => rfl)⟩
  simp [rootAB, leafA, leafB, Inst.children, Inst.referent, descList]

/-! ## C7 — entry-point discovery -/

theorem find_first_child_class_eq (parent : Inst) (cp : String → Bool) (depth : Nat) :
    find_first_child_class parent cp depth =
      (match (enumAux depth [(parent, default)]).find? (fun e => cp e.1.className) with
       | some e => some e.1.referent
       | none => none) := by
  unfold find_first_child_class foreachDescendant
  rw [foreachAux_eq_breakRun_enumAux]
  exact breakRun_findFirst cp (enumAux depth [(parent, default)]) none

/-- C7: `DomTranspiler::new` fails with the no-entry-point error exactly
when no node of class `ModuleScript`, `Script` or `LocalScript` exists
within depth 2 of the tree's root; and when it succeeds, the designated
entry point is such a node found by the depth-2-bounded search. -/
theorem c7_entry_point (tree : Inst) :
    (DomTranspiler.new tree = Except.error Problem.noMainSource ↔
        ∀ n ∈ descUpTo 2 tree, isScriptClass n.className = false) ∧
      (∀ t, DomTranspiler.new tree = Except.ok t →
        ∃ n ∈ descUpTo 2 tree, isScriptClass n.className = true ∧
          t.source_script = n.referent) := by
  have hperm : List.Perm ((enumAux 2 [(tree, default)]).map Prod.fst) (descUpTo 2 tree) := by
    have := enumAux_pos_perm 2 (by omega) [(tree, default)] (by simp)
    simpa using this
  have hmem : ∀ n : Inst, n ∈ (enumAux 2 [(tree, default)]).map Prod.fst ↔
      n ∈ descUpTo 2 tree := fun n => hperm.mem_iff
  have hfcc := find_first_child_class_eq tree isScriptClass 2
  rcases hfind : (enumAux 2 [(tree, default)]).find? (fun e => isScriptClass e.1.className)
    with _ | e
  · rw [hfind] at hfcc
    have hnew : DomTranspiler.new tree = Except.error Problem.noMainSource := by
      unfold DomTranspiler.new
      rw [hfcc]
    constructor
    · rw [hnew]
      constructor
      · intro _ n hn
        rw [List.find?_eq_none] at hfind
        rcases List.mem_map.mp ((hmem n).mpr hn) with ⟨v, hv, rfl⟩
        have := hfind v hv
        simpa using this
      · intro _
        rfl
    · intro t ht
      rw [hnew] at ht
      simp at ht
  · rw [hfind] at hfcc
    have hnew : DomTranspiler.new tree = Except.ok ⟨tree, e.1.referent, true⟩ := by
      unfold DomTranspiler.new
      rw [hfcc]
    have he := List.mem_of_find?_eq_some hfind
    have hp := List.find?_some hfind
    have hin : e.1 ∈ descUpTo 2 tree := (hmem e.1).mp (List.mem_map_of_mem Prod.fst he)
    constructor
    · rw [hnew]
      constructor
      · intro h
        simp at h
      · intro hall
        have := hall e.1 hin
        simp [this] at hp
    · intro t ht
      rw [hnew] at ht
      refine ⟨e.1, hin, by simpa using hp, ?_⟩
      cases ht
      rfl

/-- A tree whose sole script sits at depth 2: root → folder → script. -/
def scriptNode : Inst := Inst.mk 7 "Main" "Script" [("Source", Variant.str "print(1)")] []

def folderNode : Inst := Inst.mk 3 "Folder" "Folder" [] [scriptNode]

def rootWithScript : Inst := Inst.mk 0 "root" "DataModel" [] [folderNode]

/-! ## C8 — exclusion filtering during collection -/

theorem collectStep_cont (ex : Bool) (gm : String → String → Bool)
    (s : Nat × List (Nat × Nat)) (child : Inst) (path : DotPath) :
    (collectStep ex gm s child path).2 = ForEachAction.cont := by
  unfold collectStep
  by_cases h1 : child.className == "ModuleScript" <;>
    by_cases h2 : is_excluded ex gm path.path_string <;>
    simp [h1, h2]

theorem collectFoldl (ex : Bool) (gm : String → String → Bool) (vs : List Entry)
    (c0 : Nat) (st0 : List (Nat × Nat)) :
    vs.foldl (fun acc e => (collectStep ex gm acc e.1 e.2).1) (c0, st0) =
      (c0 + (vs.filter (fun e => e.1.className == "ModuleScript")).length,
       st0 ++ (vs.filter (fun e => e.1.className == "ModuleScript" &&
          !(is_excluded ex gm e.2.path_string))).map (fun e => (e.1.referent, e.2.depth))) := by
  induction vs generalizing c0 st0 with
  | nil => simp
  | cons v rest ih =>
      rcases v with ⟨n, p⟩
      by_cases h1 : n.className == "ModuleScript"
      · by_cases h2 : is_excluded ex gm p.path_string
        · rw [List.foldl_cons,
            show (collectStep ex gm (c0, st0) n p).1 = (c0 + 1, st0) by
              unfold collectStep; simp [h1, h2]]
          rw [ih]
          simp [h1, h2, Nat.add_assoc, Nat.add_comm 1]
        · rw [List.foldl_cons,
            show (collectStep ex gm (c0, st0) n p).1 =
                (c0 + 1, st0 ++ [(n.referent, p.depth)]) by
              unfold collectStep; simp [h1, h2]]
          rw [ih]
          simp [h1, h2, Nat.add_assoc, Nat.add_comm 1]
      · rw [List.foldl_cons,
          show (collectStep ex gm (c0, st0) n p).1 = (c0, st0) by
            unfold collectStep; simp [h1]]
        rw [ih]
        simp [h1]

/-- C8: during the collection phase of `transpile_tree`, over the full
(unbounded) enumeration of the entry point's descendants: the
total-candidates count equals the number of `ModuleScript` descendants
visited — excluded or not; the script stack collects exactly the
`ModuleScript` candidates whose slash-joined path does *not* match an
exclusion glob under the current exclusion setting (each as its referent and
path depth, in visit order); and, in particular, when exclusion is disabled
every `ModuleScript` candidate is collected for rewriting.  The visited
nodes cover every descendant exactly once. -/
theorem c8_collection (t : DomTranspiler) (gm : String → String → Bool) (source : Inst) :
    ((collectPhase t gm source).1.1 = ((collectPhase t gm source).2.filter
        (fun e => e.1.className == "ModuleScript")).length ∧
      (collectPhase t gm source).1.2 = ((collectPhase t gm source).2.filter
        (fun e => e.1.className == "ModuleScript" &&
          !(is_excluded t.exclude_libs gm e.2.path_string))).map
        (fun e => (e.1.referent, e.2.depth)) ∧
      List.Perm ((collectPhase t gm source).2.map Prod.fst) (descList source.children)) ∧
    (t.exclude_libs = false →
      (collectPhase t gm source).1.2 = ((collectPhase t gm source).2.filter
        (fun e => e.1.className == "ModuleScript")).map
        (fun e => (e.1.referent, e.2.depth))) := by
  have hcont : ∀ st n p, (collectStep t.exclude_libs gm st n p).2 = ForEachAction.cont :=
    fun st n p => collectStep_cont t.exclude_libs gm st n p
  have hrun : collectPhase t gm source =
      ((enumAux 0 [(source, default)]).foldl
        (fun acc e => (collectStep t.exclude_libs gm acc e.1 e.2).1) (0, []),
       enumAux 0 [(source, default)]) := by
    unfold collectPhase foreachDescendant
    rw [foreachAux_eq_breakRun_enumAux]
    rw [breakRun_no_break _ hcont]
  rw [hrun]
  rw [collectFoldl]
  refine ⟨⟨by simp, by simp, ?_⟩, ?_⟩
  · have := enumAux_zero_perm [(source, default)]
    simpa [Inst.descendants] using this
  · intro hex
    simp [is_excluded, hex]

/-- A tree with two module scripts under the entry point, one of them along
an excluded path. -/
def fusionChild : Inst := Inst.mk 21 "Util" "ModuleScript" [("Source", Variant.str "x")] []

def fusionLib : Inst := Inst.mk 20 "Fusion" "ModuleScript" [("Source", Variant.str "y")] [fusionChild]

def plainLib : Inst := Inst.mk 22 "Helper" "ModuleScript" [("Source", Variant.str "z")] []

def entrySource : Inst := Inst.mk 10 "Main" "Script" [("Source", Variant.str "m")] [fusionLib, plainLib]

theorem c8_collection_witness :
    (DomTranspiler.mk entrySource 10 false).exclude_libs = false ∧
      (collectPhase (DomTranspiler.mk entrySource 10 false) (fun _ _ => true) entrySource).1.2 =
        ((collectPhase (DomTranspiler.mk entrySource 10 false) (fun _ _ => true)
            entrySource).2.filter (fun e => e.1.className == "ModuleScript")).map
          (fun e => (e.1.referent, e.2.depth)) :=
  ⟨rfl, (c8_collection (DomTranspiler.mk entrySource 10 false) (fun _ _ => true)
    entrySource).2 rfl⟩

theorem c7_entry_point_witness :
    ∃ n ∈ descUpTo 2 rootWithScript, isScriptClass n.className = true ∧
      (DomTranspiler.mk rootWithScript 7 true).source_script = n.referent := by
  have h := (c7_entry_point rootWithScript).2 (DomTranspiler.mk rootWithScript 7 true)
    (by simp [DomTranspiler.new, find_first_child_class, foreachDescendant, foreachAux,
      forChildren, rootWithScript, folderNode, scriptNode, Inst.className, Inst.referent,
      Inst.children, isScriptClass])
  exact h

/-! ## C3 — injection ordering and the no-emission case -/

/-- The plugin-handle declaration `transpile_source` injects:
`local plugin = _proxyGlobals.plugin`. -/
def pluginLocalAssignment : LocalAssignment :=
  new_local_assignment "plugin" (Expression.symbol
    ((TokenReference.new_identifier (index_global "plugin")).with_trivia none (some "\n")))

/-- The enum-table declaration `transpile_source` injects:
`local Enums = _proxyGlobals.Enums`. -/
def enumsLocalAssignment : LocalAssignment :=
  new_local_assignment "Enums" (Expression.symbol
    ((TokenReference.new_identifier (index_global "Enums")).with_trivia none (some "\n")))

/-- C3: when all three requirement flags are set and the depth is positive,
the assembled statement list begins with, in order, the globals-require
local, the plugin-handle local, and the enum-table local — the
automated-generation marker comment attached only to the last of the three —
followed by the original rewritten statements (and last statement)
unchanged; when no declaration is emitted (all flags clear at positive
depth — at depth 0 the plugin-handle local is always emitted), the block
is returned unchanged, comment-free. -/
theorem c3_injection_order (d : Nat) (ast : Block) :
    (0 < d →
      assembleRequires { globals := true, plugin := true, enums := true } d ast =
        { stmts := [(Stmt.localAssignment (new_global_require d), none),
            (Stmt.localAssignment pluginLocalAssignment, none),
            ((Stmt.localAssignment enumsLocalAssignment).update_trailing_trivia
              [autogenComment], none)] ++ ast.stmts,
          lastStmt := ast.lastStmt }) ∧
    (0 < d →
      assembleRequires { globals := false, plugin := false, enums := false } d ast = ast) := by
  constructor
  · intro hd
    have hd0 : (d == 0) = false := by
      simp only [beq_eq_false_iff_ne, ne_eq]
      omega
    unfold assembleRequires
    simp [Requires.needsGlobals, hd, hd0, markLastRequire, pluginLocalAssignment,
      enumsLocalAssignment]
  · intro hd
    have hd0 : (d == 0) = false := by
      simp only [beq_eq_false_iff_ne, ne_eq]
      omega
    unfold assembleRequires
    simp [Requires.needsGlobals, hd0]

/-- A sample rewritten block with one opaque statement and a last
statement. -/
def sampleBlock : Block :=
  { stmts := [(Stmt.otherStmt 5, none)], lastStmt := some (LastStmt.node 9, none) }

theorem c3_injection_order_witness :
    assembleRequires { globals := true, plugin := true, enums := true } 1 sampleBlock =
        { stmts := [(Stmt.localAssignment (new_global_require 1), none),
            (Stmt.localAssignment pluginLocalAssignment, none),
            ((Stmt.localAssignment enumsLocalAssignment).update_trailing_trivia
              [autogenComment], none)] ++ sampleBlock.stmts,
          lastStmt := sampleBlock.lastStmt } ∧
      assembleRequires { globals := false, plugin := false, enums := false } 1 sampleBlock =
        sampleBlock :=
  ⟨(c3_injection_order 1 sampleBlock).1 (by decide),
    (c3_injection_order 1 sampleBlock).2 (by decide)⟩

/-! ## C4 — ancestor-plugin lookup rewrite -/

theorem visitSuffixes_skip (req : Requires) (pre l : List Suffix)
    (hpre : ∀ s ∈ pre, ∀ r, suffixStep r s = none) :
    visitSuffixes req (pre ++ l) = visitSuffixes req l := by
  induction pre with
  | nil => rfl
  | cons s rest ih =>
      simp only [List.cons_append, visitSuffixes, hpre s (List.mem_cons_self s rest) req]
      exact ih fun s' hs' => hpre s' (List.mem_cons_of_mem s hs')

/-- C4: a method-call expression invoking `FindFirstAncestorOfClass` or
`FindFirstAncestorWhichIsA` with first argument the string literal
`"Plugin"` (on any receiver; earlier suffixes trigger no rewrite of their
own) is replaced by the bare identifier `plugin` — the replacement token
inherits the trivia of the call's closing token, so its trailing trivia
(any same-line comment) survives unchanged — and the needs-plugin-handle
flag is set. -/
theorem c4_plugin_ancestor_lookup (req : Requires) (pfx : Prefix) (pre post : List Suffix)
    (mc : MethodCall)
    (hpre : ∀ s ∈ pre, ∀ r, suffixStep r s = none)
    (hname : mc.nameTok.identifier = some "FindFirstAncestorOfClass" ∨
      mc.nameTok.identifier = some "FindFirstAncestorWhichIsA")
    (harg : nth_arg_string mc.args 0 = some "Plugin") :
    visit_expression req (Expression.functionCall
        (FunctionCall.mk pfx (pre ++ Suffix.call (Call.methodCall mc) :: post))) =
      ({ req with plugin := true },
        Expression.symbol ((argsClosingToken mc.args).with_token
          (TokenKind.identifier "plugin"))) ∧
    ((argsClosingToken mc.args).with_token (TokenKind.identifier "plugin")).trailing =
      (argsClosingToken mc.args).trailing := by
  refine ⟨?_, rfl⟩
  have hstep : suffixStep req (Suffix.call (Call.methodCall mc)) =
      some ({ req with plugin := true },
        new_identifier_expression "plugin" (some (argsClosingToken mc.args))) := by
    simp only [suffixStep]
    rcases hname with h | h <;> rw [h] <;> simp [harg]
  simp only [visit_expression, FunctionCall.suffixes]
  rw [visitSuffixes_skip req pre _ hpre]
  simp only [visitSuffixes, hstep]
  rfl

/-- A concrete `script:FindFirstAncestorOfClass("Plugin") -- keep me` call:
the closing parenthesis carries a trailing same-line comment. -/
def ffaocArgs : FunctionArgs :=
  FunctionArgs.parentheses
    (TokenReference.new_type (TokenKind.symbol SymKind.leftParen))
    { leading := [], tok := TokenKind.symbol SymKind.rightParen,
      trailing := [TokenKind.singleLineComment " keep me"] }
    [(Expression.stringLit (TokenReference.new_type (TokenKind.stringLiteral "Plugin")), none)]

def ffaocCall : MethodCall :=
  MethodCall.mk (TokenReference.new_type (TokenKind.symbol SymKind.colon))
    (TokenReference.new_identifier "FindFirstAncestorOfClass") ffaocArgs

theorem c4_plugin_ancestor_lookup_witness :
    visit_expression default (Expression.functionCall (FunctionCall.mk
        (Prefix.name (TokenReference.new_identifier "script"))
        [Suffix.call (Call.methodCall ffaocCall)])) =
      ({ globals := false, plugin := true, enums := false },
        Expression.symbol ((argsClosingToken ffaocCall.args).with_token
          (TokenKind.identifier "plugin"))) ∧
      ((argsClosingToken ffaocCall.args).with_token (TokenKind.identifier "plugin")).trailing =
        (argsClosingToken ffaocCall.args).trailing := by
  have h := c4_plugin_ancestor_lookup default
    (Prefix.name (TokenReference.new_identifier "script")) [] [] ffaocCall
    (by simp) (Or.inl rfl) rfl
  exact ⟨by simpa using h.1, h.2⟩

/-! ## C1 — the `GetService` rewrite -/

/-- A concrete `game:GetService("RunService")` call — a `GetService` method
call *with* an explicit receiver qualifier (`game`). -/
def getServiceArgs : FunctionArgs :=
  FunctionArgs.parentheses
    (TokenReference.new_type (TokenKind.symbol SymKind.leftParen))
    (TokenReference.new_type (TokenKind.symbol SymKind.rightParen))
    [(Expression.stringLit (TokenReference.new_type (TokenKind.stringLiteral "RunService")),
      none)]

def getServiceCall : MethodCall :=
  MethodCall.mk (TokenReference.new_type (TokenKind.symbol SymKind.colon))
    (TokenReference.new_identifier "GetService") getServiceArgs

def eGame : Expression :=
  Expression.functionCall (FunctionCall.mk
    (Prefix.name (TokenReference.new_identifier "game"))
    [Suffix.call (Call.methodCall getServiceCall)])

/-- C1 as stated is false: `game:GetService("RunService")` carries an
explicit receiver qualifier (`game`), yet the visitor rewrites it (to
`_proxyGlobals.game:GetService("RunService")`, dropping the original
receiver) instead of passing it through byte-identical — and it sets the
needs-globals flag for it. -/
theorem c1_counterexample :
    (visit_expression default eGame).2 ≠ eGame ∧
      (visit_expression default eGame).1.globals = true := by
  constructor
  · intro h
    rw [show (visit_expression default eGame).2 =
        Expression.functionCall (FunctionCall.mk
          (Prefix.name (TokenReference.new_identifier GLOBAL_VAR_NAME))
          [Suffix.index (Index.dot (TokenReference.new_type (TokenKind.symbol SymKind.dot))
            (TokenReference.new_identifier "game")),
           Suffix.call (Call.methodCall getServiceCall)]) from rfl] at h
    rw [show eGame = Expression.functionCall (FunctionCall.mk
        (Prefix.name (TokenReference.new_identifier "game"))
        [Suffix.call (Call.methodCall getServiceCall)]) from rfl] at h
    simp [GLOBAL_VAR_NAME, TokenReference.new_identifier, TokenReference.new_type] at h
  · rfl

/-- C1, amended: the visitor rewrites *every* function-call expression whose
first triggering suffix is a `GetService` method call — regardless of any
receiver qualifier, which it discards — replacing the whole expression by
`_proxyGlobals.game:<the same GetService call>` and setting the
needs-globals flag; an expression none of whose suffixes triggers a rewrite
passes through unchanged (byte-identical, trivia included). -/
theorem c1_getservice_rewrite :
    (∀ (req : Requires) (pfx : Prefix) (pre post : List Suffix) (mc : MethodCall),
      (∀ s ∈ pre, ∀ r, suffixStep r s = none) →
      mc.nameTok.identifier = some "GetService" →
      visit_expression req (Expression.functionCall
          (FunctionCall.mk pfx (pre ++ Suffix.call (Call.methodCall mc) :: post))) =
        ({ req with globals := true },
          Expression.functionCall (FunctionCall.mk
            (Prefix.name (TokenReference.new_identifier GLOBAL_VAR_NAME))
            [Suffix.index (Index.dot (TokenReference.new_type (TokenKind.symbol SymKind.dot))
              (TokenReference.new_identifier "game")),
             Suffix.call (Call.methodCall mc)]))) ∧
    (∀ (req : Requires) (fc : FunctionCall),
      (∀ s ∈ fc.suffixes, ∀ r, suffixStep r s = none) →
      visit_expression req (Expression.functionCall fc) = (req, Expression.functionCall fc)) := by
  constructor
  · intro req pfx pre post mc hpre hname
    have hstep : suffixStep req (Suffix.call (Call.methodCall mc)) =
        some ({ req with globals := true },
          Expression.functionCall (FunctionCall.mk
            (Prefix.name (TokenReference.new_identifier GLOBAL_VAR_NAME))
            [Suffix.index (Index.dot (TokenReference.new_type (TokenKind.symbol SymKind.dot))
              (TokenReference.new_identifier "game")),
             Suffix.call (Call.methodCall mc)])) := by
      simp only [suffixStep]
      rw [hname]
      simp
    simp only [visit_expression, FunctionCall.suffixes]
    rw [visitSuffixes_skip req pre _ hpre]
    simp only [visitSuffixes, hstep]
  · intro req fc hall
    have hnone : visitSuffixes req fc.suffixes = none := by
      have := visitSuffixes_skip req fc.suffixes [] hall
      simpa using this
    simp only [visit_expression, hnone]

theorem c1_getservice_rewrite_witness :
    visit_expression default eGame =
        ({ globals := true, plugin := false, enums := false },
          Expression.functionCall (FunctionCall.mk
            (Prefix.name (TokenReference.new_identifier GLOBAL_VAR_NAME))
            [Suffix.index (Index.dot (TokenReference.new_type (TokenKind.symbol SymKind.dot))
              (TokenReference.new_identifier "game")),
             Suffix.call (Call.methodCall getServiceCall)])) ∧
      visit_expression default (Expression.functionCall (FunctionCall.mk
          (Prefix.name (TokenReference.new_identifier "x"))
          [Suffix.index (Index.dot (TokenReference.new_type (TokenKind.symbol SymKind.dot))
            (TokenReference.new_identifier "y"))])) =
        (default, Expression.functionCall (FunctionCall.mk
          (Prefix.name (TokenReference.new_identifier "x"))
          [Suffix.index (Index.dot (TokenReference.new_type (TokenKind.symbol SymKind.dot))
            (TokenReference.new_identifier "y"))])) := by
  constructor
  · have h := c1_getservice_rewrite.1 default
      (Prefix.name (TokenReference.new_identifier "game")) [] []
      getServiceCall (by simp) rfl
    simpa [eGame] using h
  · exact c1_getservice_rewrite.2 default _
      (by intro s hs r
          simp only [FunctionCall.suffixes, List.mem_singleton] at hs
          subst hs
          rfl)

/-! ## C10 — `process_script` touches only the Source property -/

theorem getProp_setProp_ne (props : List (String × Variant)) (key k : String) (v : Variant)
    (hk : k ≠ key) : getProp (setProp props key v) k = getProp props k := by
  induction props with
  | nil => rfl
  | cons p rest ih =>
      rcases p with ⟨k', v'⟩
      by_cases h : k' = key
      · subst h
        have hne : (k' == k) = false := by
          simp only [beq_eq_false_iff_ne, ne_eq]
          exact fun hc => hk hc.symm
        simp [setProp, getProp, hne]
      · by_cases h2 : k' = k
        · subst h2
          have hne : (k' == key) = false := by simpa using h
          simp [setProp, getProp, hne]
        · have hne : (k' == key) = false := by simpa using h
          have hne2 : (k' == k) = false := by simpa using h2
          simp [setProp, getProp, hne, hne2, ih]

/-- C10: processing a script node that has a string Source property at a
positive depth modifies only the `"Source"` property: referent, name, class
tag, children and every other property read back unchanged (the class tag
is reassigned to `ModuleScript` only on the depth-0 branch). -/
theorem c10_process_script_frame
    (parseVisit : String → Except (List Nat) (Requires × Block))
    (printAst wrapMain : Block → String) (script : Inst) (depth : Nat)
    (src : String) (script' : Inst)
    (hd : 0 < depth)
    (hsrc : getProp script.props "Source" = some (Variant.str src))
    (h : process_script parseVisit printAst wrapMain script depth = Except.ok script') :
    script'.referent = script.referent ∧ script'.name = script.name ∧
      script'.className = script.className ∧ script'.children = script.children ∧
      ∀ k, k ≠ "Source" → getProp script'.props k = getProp script.props k := by
  have hd0 : (depth == 0) = false := by simp; omega
  unfold process_script at h
  rw [hsrc, hd0] at h
  simp only [Bool.false_eq_true, ite_false] at h
  rcases ht : transpile_source parseVisit src depth with e | ast
  · rw [ht] at h
    cases h
  · rw [ht] at h
    simp only [Except.ok.injEq] at h
    subst h
    cases script with
    | mk r n cls props children =>
        refine ⟨rfl, rfl, rfl, rfl, ?_⟩
        intro k hk
        show getProp (setProp props "Source" _) k = getProp props k
        exact getProp_setProp_ne props "Source" k _ hk

theorem c10_process_script_frame_witness :
    scriptNode.referent = scriptNode.referent ∧ scriptNode.name = scriptNode.name ∧
      scriptNode.className = scriptNode.className ∧
      scriptNode.children = scriptNode.children ∧
      ∀ k, k ≠ "Source" → getProp scriptNode.props k = getProp scriptNode.props k := by
  have h := c10_process_script_frame
    (fun _ => Except.ok ({ globals := false, plugin := false, enums := false }, sampleBlock))
    (fun _ => "printed") (fun _ => "wrapped") scriptNode 1 "print(1)"
    (scriptNode.withProps (setProp scriptNode.props "Source" (Variant.str "printed")))
    (by decide) rfl
    (by simp [process_script, scriptNode, Inst.props, Inst.name, transpile_source,
      assembleRequires, Requires.needsGlobals, getProp])
  simpa [scriptNode, Inst.withProps, Inst.props, Inst.referent, Inst.name, Inst.className,
    Inst.children, setProp, getProp] using h

/-! ## C2 — invalid extensions and the order of I/O in `from_file` -/

/-- C2 as stated is false: on `"plugin.txt"` (an unrecognized extension)
`from_file` performs a file open *before* the extension check — the I/O log
is non-empty even though the result is the `InvalidExtensionError`; and
when the open itself fails, the error reported is the `IOError`, not the
`InvalidExtensionError`. -/
theorem c2_counterexample :
    (from_file (fun _ => true) (fun _ => Except.error 0) "plugin.txt").1 =
        Except.error (Problem.invalidExtension "plugin.txt") ∧
      (from_file (fun _ => true) (fun _ => Except.error 0) "plugin.txt").2 ≠ [] ∧
      (from_file (fun _ => false) (fun _ => Except.error 0) "plugin.txt").1 =
        Except.error (Problem.ioError "read the place file") := by
  have hpe : pathExtension "plugin.txt" = some "txt" := by decide
  have hext : RbxFileType.from_path "plugin.txt" =
      Except.error (Problem.invalidExtension "plugin.txt") := by
    unfold RbxFileType.from_path
    rw [hpe]
    rfl
  have h1 : from_file (fun _ => true) (fun _ => Except.error 0) "plugin.txt" =
      (Except.error (Problem.invalidExtension "plugin.txt"),
        [IOEvent.openRead "plugin.txt"]) := by
    unfold from_file
    rw [hext]
    simp
  have h2 : from_file (fun _ => false) (fun _ => Except.error 0) "plugin.txt" =
      (Except.error (Problem.ioError "read the place file"),
        [IOEvent.openRead "plugin.txt"]) := by
    unfold from_file
    rfl
  refine ⟨by rw [h1], by rw [h1]; simp, by rw [h2]⟩

/-- C2, amended: for every input path whose extension is not one of the four
recognized ones, `from_file` *first* attempts to open the file (one open is
always logged); if the open succeeds it then returns the
`InvalidExtensionError` carrying the path, before any decode of the stream
is attempted (the log stops at the single open); if the open fails it
returns an `IOError` instead. -/
theorem c2_invalid_extension_after_open (openOk : String → Bool)
    (decodeResult : RbxFileType → Except Nat Inst) (p : String)
    (hext : RbxFileType.from_path p = Except.error (Problem.invalidExtension p)) :
    (openOk p = true →
      from_file openOk decodeResult p =
        (Except.error (Problem.invalidExtension p), [IOEvent.openRead p])) ∧
    (openOk p = false →
      from_file openOk decodeResult p =
        (Except.error (Problem.ioError "read the place file"), [IOEvent.openRead p])) := by
  constructor
  · intro hopen
    unfold from_file
    rw [hopen, hext]
    rfl
  · intro hopen
    unfold from_file
    rw [hopen]
    rfl

theorem c2_invalid_extension_after_open_witness :
    from_file (fun _ => true) (fun _ => Except.error 0) "plugin.txt" =
        (Except.error (Problem.invalidExtension "plugin.txt"), [IOEvent.openRead "plugin.txt"]) ∧
      from_file (fun _ => false) (fun _ => Except.error 0) "plugin.txt" =
        (Except.error (Problem.ioError "read the place file"),
          [IOEvent.openRead "plugin.txt"]) :=
  ⟨(c2_invalid_extension_after_open (fun _ => true) (fun _ => Except.error 0) "plugin.txt"
      (by unfold RbxFileType.from_path
          rw [show pathExtension "plugin.txt" = some "txt" from by decide]
          rfl)).1 rfl,
    (c2_invalid_extension_after_open (fun _ => false) (fun _ => Except.error 0) "plugin.txt"
      (by unfold RbxFileType.from_path
          rw [show pathExtension "plugin.txt" = some "txt" from by decide]
          rfl)).2 rfl⟩

end PluginProxy
